import Mathlib

/-!
Verification of the logistic-regression SMS spam classifier notebook
(`sms_classify.ipynb`).  The numeric core (`logistic`, `cost_function`,
`gradient_descent`) is imported by the notebook from a `logistic_regression`
module that is not part of the provided sources, so those functions are
modelled from the specification; everything else (prediction via `np.round`,
the `preprocess` normalizer, label encoding, dataset shaping, feature
extraction) is embedded directly from the notebook cells.
-/

open Finset

/-- Modelled from the spec: the logistic (sigmoid) hypothesis function
`logistic` from the absent `logistic_regression` module;
`hypothesis(z) = 1 / (1 + exp(-z))`. -/
noncomputable def hypothesis (z : ℝ) : ℝ := 1 / (1 + Real.exp (-z))

/-- Dot product of two `Fin k`-indexed real vectors, as in `np.dot`. -/
noncomputable def dotProd {k : ℕ} (a b : Fin k → ℝ) : ℝ := ∑ j, a j * b j

/-- Vector of hypothesis outputs for all rows of the design matrix
(`h = logistic(X · theta)`). -/
noncomputable def hvec {m k : ℕ} (X : Fin m → Fin k → ℝ) (θ : Fin k → ℝ) :
    Fin m → ℝ := fun i => hypothesis (dotProd (X i) θ)

/-- Modelled from the spec: the scalar cost of `cost_function` from the absent
`logistic_regression` module; the average negative log-likelihood
`J = -(1/m) * sum_i (y_i*log h_i + (1-y_i)*log (1-h_i))`. -/
noncomputable def cost {m k : ℕ} (X : Fin m → Fin k → ℝ) (y : Fin m → ℝ)
    (θ : Fin k → ℝ) : ℝ :=
  -(1 / (m : ℝ)) *
    ∑ i, (y i * Real.log (hvec X θ i) + (1 - y i) * Real.log (1 - hvec X θ i))

/-- Modelled from the spec: the gradient returned by `cost_function` from the
absent `logistic_regression` module; componentwise
`grad_j = (1/m) * sum_i X_ij * (h_i - y_i)`. -/
noncomputable def grad {m k : ℕ} (X : Fin m → Fin k → ℝ) (y : Fin m → ℝ)
    (θ : Fin k → ℝ) : Fin k → ℝ :=
  fun j => (1 / (m : ℝ)) * ∑ i, X i j * (hvec X θ i - y i)

/-- Modelled from the spec: `cost_function(X, y, theta)` returns the pair of
the scalar cost and the gradient vector. -/
noncomputable def cost_function {m k : ℕ} (X : Fin m → Fin k → ℝ)
    (y : Fin m → ℝ) (θ : Fin k → ℝ) : ℝ × (Fin k → ℝ) :=
  (cost X y θ, grad X y θ)

/-- One gradient-descent update: `theta := theta - alpha * grad`. -/
noncomputable def gdStep {m k : ℕ} (X : Fin m → Fin k → ℝ) (y : Fin m → ℝ)
    (α : ℝ) (θ : Fin k → ℝ) : Fin k → ℝ :=
  fun j => θ j - α * (cost_function X y θ).2 j

/-- Modelled from the spec: `gradient_descent(X, y, theta, alpha, iters)` from
the absent `logistic_regression` module.  Performs a fixed number of
iterations; each records the cost at the pre-update theta and then applies
`gdStep`; returns the final theta and the cost history. -/
noncomputable def gradient_descent {m k : ℕ} (X : Fin m → Fin k → ℝ)
    (y : Fin m → ℝ) (θ : Fin k → ℝ) (α : ℝ) : ℕ → (Fin k → ℝ) × List ℝ
  | 0 => (θ, [])
  | T + 1 =>
    let rest := gradient_descent X y (gdStep X y α θ) α T
    (rest.1, (cost_function X y θ).1 :: rest.2)

/-- Rounding to the nearest integer with ties to even, the semantics of
numpy's `np.round(p, 0)` used by the notebook's prediction cells. -/
noncomputable def npRound (p : ℝ) : ℤ :=
  if Int.fract p < 1 / 2 then ⌊p⌋
  else if 1 / 2 < Int.fract p then ⌈p⌉
  else if Even ⌊p⌋ then ⌊p⌋ else ⌊p⌋ + 1

/-- The notebook's single-message prediction:
`y_predict = int(np.round(logistic(np.dot(x, theta)), 0))`. -/
noncomputable def predictOne {k : ℕ} (x θ : Fin k → ℝ) : ℤ :=
  npRound (hypothesis (dotProd x θ))

/-! ### Basic facts about the sigmoid -/

lemma one_add_exp_pos (z : ℝ) : 0 < 1 + Real.exp (-z) := by positivity

lemma hypothesis_pos (z : ℝ) : 0 < hypothesis z := by
  unfold hypothesis
  positivity

lemma hypothesis_lt_one (z : ℝ) : hypothesis z < 1 := by
  unfold hypothesis
  rw [div_lt_one (one_add_exp_pos z)]
  have := Real.exp_pos (-z)
  linarith

lemma hypothesis_zero : hypothesis 0 = 1 / 2 := by
  unfold hypothesis
  norm_num

lemma hypothesis_add_neg (z : ℝ) : hypothesis z + hypothesis (-z) = 1 := by
  unfold hypothesis
  have h1 : (0:ℝ) < 1 + Real.exp (-z) := one_add_exp_pos z
  have h2 : (0:ℝ) < 1 + Real.exp z := by positivity
  have hm : Real.exp (-z) * Real.exp z = 1 := by
    rw [← Real.exp_add]
    simp
  field_simp
  ring_nf
  nlinarith [hm]

/-- Claim C4: for every real `z`, `hypothesis z = 1 / (1 + exp (-z))` lies
strictly in the open interval `(0, 1)`, `hypothesis 0` equals `1/2` exactly,
and `hypothesis z + hypothesis (-z) = 1` (here an exact identity over the
reals, so a fortiori within any tolerance). -/
theorem hypothesis_sigmoid_properties (z : ℝ) :
    hypothesis z = 1 / (1 + Real.exp (-z)) ∧
    0 < hypothesis z ∧ hypothesis z < 1 ∧
    hypothesis 0 = 1 / 2 ∧
    hypothesis z + hypothesis (-z) = 1 :=
  ⟨rfl, hypothesis_pos z, hypothesis_lt_one z, hypothesis_zero,
    hypothesis_add_neg z⟩

/-! ### The decision rule (`np.round` on a probability) -/

lemma fract_eq_self_of_prob {p : ℝ} (h0 : 0 ≤ p) (h1 : p < 1) :
    Int.fract p = p :=
  Int.fract_eq_self.mpr ⟨h0, h1⟩

lemma floor_prob_eq_zero {p : ℝ} (h0 : 0 ≤ p) (h1 : p < 1) : ⌊p⌋ = 0 :=
  Int.floor_eq_zero_iff.mpr ⟨h0, h1⟩

lemma npRound_prob_lt_half {p : ℝ} (h0 : 0 ≤ p) (h : p < 1 / 2) :
    npRound p = 0 := by
  have h1 : p < 1 := by linarith
  unfold npRound
  rw [fract_eq_self_of_prob h0 h1, if_pos h, floor_prob_eq_zero h0 h1]

lemma npRound_prob_gt_half {p : ℝ} (h : 1 / 2 < p) (h1 : p < 1) :
    npRound p = 1 := by
  have h0 : (0:ℝ) ≤ p := by linarith
  unfold npRound
  rw [fract_eq_self_of_prob h0 h1, if_neg (by linarith), if_pos h]
  exact Int.ceil_eq_iff.mpr ⟨by push_cast; linarith, by push_cast; linarith⟩

lemma npRound_half : npRound (1 / 2 : ℝ) = 0 := by
  unfold npRound
  have hf : Int.fract (1 / 2 : ℝ) = 1 / 2 :=
    fract_eq_self_of_prob (by norm_num) (by norm_num)
  have hfl : ⌊(1 / 2 : ℝ)⌋ = 0 := floor_prob_eq_zero (by norm_num) (by norm_num)
  rw [hf, if_neg (by norm_num), if_neg (by norm_num), hfl,
    if_pos (by decide : Even (0:ℤ))]

/-- Claim C1, counterexample: on the feature row `x = [1]` (bias only) with
fitted parameters `theta = [0]`, the predicted probability is exactly `0.5`,
yet the notebook's `np.round`-based prediction returns `0` (ham), not the
positive label `1` the claim requires for `p >= 0.5`. -/
theorem predictOne_half_is_negative :
    hypothesis (dotProd ![(1:ℝ)] ![(0:ℝ)]) = 1 / 2 ∧
    predictOne ![(1:ℝ)] ![(0:ℝ)] = 0 := by
  have hdot : dotProd ![(1:ℝ)] ![(0:ℝ)] = 0 := by
    simp [dotProd]
  constructor
  · rw [hdot, hypothesis_zero]
  · unfold predictOne
    rw [hdot, hypothesis_zero, npRound_half]

/-- Claim C1, amended: for every fitted `theta` and feature row `x` (bias
entry included), the prediction computes `p = hypothesis (x · theta)` and
returns the positive (spam) label iff `p > 0.5`; a tie at exactly `0.5`
returns the negative label, because `np.round` rounds half to even and
`floor 0.5 = 0` is even. -/
theorem predictOne_pos_iff_gt_half {k : ℕ} (x θ : Fin k → ℝ) :
    (predictOne x θ = 1 ↔ 1 / 2 < hypothesis (dotProd x θ)) ∧
    (predictOne x θ = 0 ↔ hypothesis (dotProd x θ) ≤ 1 / 2) := by
  set p := hypothesis (dotProd x θ) with hp
  have hp0 : 0 < p := hypothesis_pos _
  have hp1 : p < 1 := hypothesis_lt_one _
  unfold predictOne
  rw [← hp]
  rcases lt_trichotomy p (1 / 2) with hlt | heq | hgt
  · rw [npRound_prob_lt_half hp0.le hlt]
    constructor
    · constructor
      · intro h
        exact absurd h (by norm_num)
      · intro h
        exact absurd h (by linarith)
    · constructor
      · intro _
        linarith
      · intro _
        rfl
  · rw [heq, npRound_half]
    constructor
    · constructor
      · intro h
        exact absurd h (by norm_num)
      · intro h
        exact absurd h (by linarith)
    · constructor
      · intro _
        linarith
      · intro _
        rfl
  · rw [npRound_prob_gt_half hgt hp1]
    constructor
    · constructor
      · intro _
        exact hgt
      · intro _
        rfl
    · constructor
      · intro h
        exact absurd h (by norm_num)
      · intro h
        exact absurd h (by linarith)

/-! ### Gradient descent: iteration structure -/

lemma gradient_descent_eq {m k : ℕ} (X : Fin m → Fin k → ℝ) (y : Fin m → ℝ)
    (α : ℝ) (T : ℕ) (θ : Fin k → ℝ) :
    gradient_descent X y θ α T =
      ((gdStep X y α)^[T] θ,
        (List.range T).map fun t => cost X y ((gdStep X y α)^[t] θ)) := by
  induction T generalizing θ with
  | zero => simp [gradient_descent]
  | succ T ih =>
    simp only [gradient_descent, ih, cost_function]
    rw [List.range_succ_eq_map, List.map_cons, List.map_map]
    have hfun : ((fun t => cost X y ((gdStep X y α)^[t] θ)) ∘ Nat.succ) =
        fun t => cost X y ((gdStep X y α)^[t] (gdStep X y α θ)) := by
      funext t
      simp [Function.iterate_succ_apply]
    rw [hfun]
    refine Prod.ext ?_ ?_
    · exact (Function.iterate_succ_apply (gdStep X y α) T θ).symm
    · simp

/-- Claim C2: `gradient_descent X y theta alpha T` performs exactly `T`
iterations, each replacing theta by `theta - alpha * grad` (the map `gdStep`)
and recording the scalar cost at the pre-update theta, in iteration order;
it returns the `T`-fold iterate as the final theta together with a
cost-history list of length exactly `T`. -/
theorem gradient_descent_spec {m k : ℕ} (X : Fin m → Fin k → ℝ)
    (y : Fin m → ℝ) (θ : Fin k → ℝ) (α : ℝ) (T : ℕ) :
    (gradient_descent X y θ α T).1 = (gdStep X y α)^[T] θ ∧
    (gradient_descent X y θ α T).2 =
      (List.range T).map (fun t => (cost_function X y ((gdStep X y α)^[t] θ)).1) ∧
    (gradient_descent X y θ α T).2.length = T := by
  rw [gradient_descent_eq]
  refine ⟨rfl, ?_, by simp⟩
  simp [cost_function]

/-- Claim C7: training is deterministic — two `gradient_descent` calls with
identical design matrix, labels, initial theta, learning rate, and iteration
count return identical final theta vectors and identical cost histories; the
optimizer is a pure function of its inputs, with no internal randomness. -/
theorem gradient_descent_deterministic {m k : ℕ}
    (X₁ X₂ : Fin m → Fin k → ℝ) (y₁ y₂ : Fin m → ℝ) (θ₁ θ₂ : Fin k → ℝ)
    (α₁ α₂ : ℝ) (T₁ T₂ : ℕ)
    (hX : X₁ = X₂) (hy : y₁ = y₂) (hθ : θ₁ = θ₂) (hα : α₁ = α₂)
    (hT : T₁ = T₂) :
    (gradient_descent X₁ y₁ θ₁ α₁ T₁).1 = (gradient_descent X₂ y₂ θ₂ α₂ T₂).1 ∧
    (gradient_descent X₁ y₁ θ₁ α₁ T₁).2 = (gradient_descent X₂ y₂ θ₂ α₂ T₂).2 := by
  rw [hX, hy, hθ, hα, hT]
  exact ⟨rfl, rfl⟩

/-- Witness for C7: determinism instantiated at a concrete one-example,
one-feature training problem. -/
theorem gradient_descent_deterministic_witness :
    (gradient_descent ![![(1:ℝ)]] ![(1:ℝ)] ![(0:ℝ)] 1 2).1 =
      (gradient_descent ![![(1:ℝ)]] ![(1:ℝ)] ![(0:ℝ)] 1 2).1 ∧
    (gradient_descent ![![(1:ℝ)]] ![(1:ℝ)] ![(0:ℝ)] 1 2).2 =
      (gradient_descent ![![(1:ℝ)]] ![(1:ℝ)] ![(0:ℝ)] 1 2).2 :=
  gradient_descent_deterministic _ _ _ _ _ _ _ _ _ _ rfl rfl rfl rfl rfl

/-! ### The gradient is the exact analytic derivative of the cost -/

lemma hypothesis_ne_zero (z : ℝ) : hypothesis z ≠ 0 :=
  ne_of_gt (hypothesis_pos z)

lemma one_sub_hypothesis_ne_zero (z : ℝ) : 1 - hypothesis z ≠ 0 :=
  ne_of_gt (by linarith [hypothesis_lt_one z])

lemma hasDerivAt_hypothesis (z : ℝ) :
    HasDerivAt hypothesis (hypothesis z * (1 - hypothesis z)) z := by
  have h1 : HasDerivAt (fun w : ℝ => -w) (-1) z := (hasDerivAt_id z).neg
  have h2 : HasDerivAt (fun w : ℝ => Real.exp (-w)) (Real.exp (-z) * -1) z :=
    h1.exp
  have h3 : HasDerivAt (fun w : ℝ => 1 + Real.exp (-w)) (Real.exp (-z) * -1) z :=
    h2.const_add 1
  have h4 : HasDerivAt (fun w : ℝ => (1 + Real.exp (-w))⁻¹)
      (-(Real.exp (-z) * -1) / (1 + Real.exp (-z)) ^ 2) z :=
    h3.inv (ne_of_gt (one_add_exp_pos z))
  have hfun : hypothesis = fun w : ℝ => (1 + Real.exp (-w))⁻¹ := by
    funext w
    simp [hypothesis, one_div]
  rw [hfun]
  convert h4 using 1
  have hg : (0:ℝ) < 1 + Real.exp (-z) := one_add_exp_pos z
  simp only [hypothesis]
  field_simp
  ring

lemma hasDerivAt_logTerm (a c yi t : ℝ) :
    HasDerivAt
      (fun s => yi * Real.log (hypothesis (c + a * s)) +
        (1 - yi) * Real.log (1 - hypothesis (c + a * s)))
      (a * (yi - hypothesis (c + a * t))) t := by
  have hu : HasDerivAt (fun s : ℝ => c + a * s) a t := by
    simpa using ((hasDerivAt_id t).const_mul a).const_add c
  have hh : HasDerivAt (fun s : ℝ => hypothesis (c + a * s))
      (hypothesis (c + a * t) * (1 - hypothesis (c + a * t)) * a) t :=
    (hasDerivAt_hypothesis (c + a * t)).comp t hu
  have hlog1 : HasDerivAt (fun s : ℝ => Real.log (hypothesis (c + a * s)))
      (hypothesis (c + a * t) * (1 - hypothesis (c + a * t)) * a /
        hypothesis (c + a * t)) t :=
    hh.log (hypothesis_ne_zero _)
  have hone : HasDerivAt (fun s : ℝ => 1 - hypothesis (c + a * s))
      (-(hypothesis (c + a * t) * (1 - hypothesis (c + a * t)) * a)) t :=
    hh.const_sub 1
  have hlog2 : HasDerivAt (fun s : ℝ => Real.log (1 - hypothesis (c + a * s)))
      (-(hypothesis (c + a * t) * (1 - hypothesis (c + a * t)) * a) /
        (1 - hypothesis (c + a * t))) t :=
    hone.log (one_sub_hypothesis_ne_zero _)
  have hsum := (hlog1.const_mul yi).add (hlog2.const_mul (1 - yi))
  convert hsum using 1
  have hne1 := hypothesis_ne_zero (c + a * t)
  have hne2 := one_sub_hypothesis_ne_zero (c + a * t)
  field_simp
  ring

lemma dotProd_update {k : ℕ} (v θ : Fin k → ℝ) (j : Fin k) (t : ℝ) :
    dotProd v (Function.update θ j t) =
      (dotProd v θ - v j * θ j) + v j * t := by
  unfold dotProd
  have hupd : ∀ j' : Fin k,
      Function.update θ j t j' = θ j' + (if j' = j then t - θ j else 0) := by
    intro j'
    by_cases h : j' = j
    · subst h
      simp
    · rw [Function.update_noteq h, if_neg h, add_zero]
  calc ∑ j', v j' * Function.update θ j t j'
      = ∑ j', (v j' * θ j' + (if j' = j then v j' * (t - θ j) else 0)) := by
        refine Finset.sum_congr rfl fun j' _ => ?_
        rw [hupd j']
        by_cases h : j' = j
        · rw [if_pos h, if_pos h]
          ring
        · rw [if_neg h, if_neg h]
          ring
    _ = (∑ j', v j' * θ j') + ∑ j', (if j' = j then v j' * (t - θ j) else 0) :=
        Finset.sum_add_distrib
    _ = (∑ j', v j' * θ j') + v j * (t - θ j) := by
        rw [Finset.sum_ite_eq' Finset.univ j (fun j' => v j' * (t - θ j))]
        simp
    _ = ((∑ j', v j' * θ j') - v j * θ j) + v j * t := by ring

lemma hasDerivAt_cost_update {m k : ℕ} (X : Fin m → Fin k → ℝ)
    (y : Fin m → ℝ) (θ : Fin k → ℝ) (j : Fin k) :
    HasDerivAt (fun t => cost X y (Function.update θ j t))
      (grad X y θ j) (θ j) := by
  have hcost : (fun t => cost X y (Function.update θ j t)) =
      fun t => -(1 / (m : ℝ)) *
        ∑ i, (y i *
            Real.log (hypothesis ((dotProd (X i) θ - X i j * θ j) + X i j * t)) +
          (1 - y i) *
            Real.log (1 - hypothesis ((dotProd (X i) θ - X i j * θ j) + X i j * t))) := by
    funext t
    unfold cost hvec
    congr 1
    refine Finset.sum_congr rfl fun i _ => ?_
    rw [dotProd_update]
  rw [hcost]
  have hterm : ∀ i : Fin m, i ∈ Finset.univ →
      HasDerivAt (fun t =>
        y i * Real.log (hypothesis ((dotProd (X i) θ - X i j * θ j) + X i j * t)) +
        (1 - y i) *
          Real.log (1 - hypothesis ((dotProd (X i) θ - X i j * θ j) + X i j * t)))
        (X i j * (y i - hvec X θ i)) (θ j) := by
    intro i _
    have harg : (dotProd (X i) θ - X i j * θ j) + X i j * θ j = dotProd (X i) θ := by
      ring
    have h := hasDerivAt_logTerm (X i j) (dotProd (X i) θ - X i j * θ j) (y i) (θ j)
    rw [harg] at h
    exact h
  have hsum := HasDerivAt.sum hterm
  have hmul := hsum.const_mul (-(1 / (m : ℝ)))
  convert hmul using 1
  have hneg : ∑ i, X i j * (hvec X θ i - y i) =
      -(∑ i, X i j * (y i - hvec X θ i)) := by
    rw [← Finset.sum_neg_distrib]
    exact Finset.sum_congr rfl fun i _ => by ring
  unfold grad
  rw [hneg]
  ring

/-- Claim C3: `cost_function X y theta` returns the scalar
`J = -(1/m) * sum_i (y_i*log h_i + (1-y_i)*log (1-h_i))` with
`h_i = hypothesis (X_i · theta)`, its returned gradient equals
`(1/m) * Xᵀ · (h - y)`, and that gradient is the exact analytic gradient
of `J`: for each component `j`, the partial map `t ↦ J(theta[j := t])` has
derivative `grad_j` at `theta j`. -/
theorem cost_function_exact_gradient {m k : ℕ} (X : Fin m → Fin k → ℝ)
    (y : Fin m → ℝ) (θ : Fin k → ℝ) (hy : ∀ i, y i = 0 ∨ y i = 1) :
    (cost_function X y θ).1 =
      -(1 / (m : ℝ)) * ∑ i, (y i * Real.log (hvec X θ i) +
        (1 - y i) * Real.log (1 - hvec X θ i)) ∧
    ((cost_function X y θ).2 = fun j =>
      (1 / (m : ℝ)) *
        Matrix.mulVec (Matrix.of X).transpose (fun i => hvec X θ i - y i) j) ∧
    ∀ j, HasDerivAt (fun t => (cost_function X y (Function.update θ j t)).1)
      ((cost_function X y θ).2 j) (θ j) := by
  refine ⟨rfl, ?_, fun j => hasDerivAt_cost_update X y θ j⟩
  funext j
  simp [cost_function, grad, Matrix.mulVec, Matrix.dotProduct,
    Matrix.transpose_apply, Matrix.of_apply]

/-- Witness for C3: the gradient/derivative statement instantiated at the
one-example, one-feature design matrix `X = [[1]]`, labels `y = [0]`,
`theta = [0]`, component `j = 0`. -/
theorem cost_function_exact_gradient_witness :
    HasDerivAt
      (fun t => (cost_function ![![(1:ℝ)]] ![(0:ℝ)]
        (Function.update ![(0:ℝ)] 0 t)).1)
      ((cost_function ![![(1:ℝ)]] ![(0:ℝ)] ![(0:ℝ)]).2 0)
      ((![(0:ℝ)] : Fin 1 → ℝ) 0) :=
  (cost_function_exact_gradient ![![(1:ℝ)]] ![(0:ℝ)] ![(0:ℝ)]
    (fun i => Or.inl (by fin_cases i; rfl))).2.2 0

/-! ### The text normalizer `preprocess` -/

/-- The replacement text of `re.sub('[£$]', ' __currency__ ', doc)`. -/
def currencyTok : List Char :=
  [' ', '_', '_', 'c', 'u', 'r', 'r', 'e', 'n', 'c', 'y', '_', '_', ' ']

/-- The replacement text of `re.sub('\://', ' __url__ ', doc)`. -/
def urlTok : List Char := [' ', '_', '_', 'u', 'r', 'l', '_', '_', ' ']

/-- `re.sub('[£$]', ' __currency__ ', doc)`: every `$` or `£` character is
replaced by the currency token; all other characters are kept. -/
def subCurrency : List Char → List Char
  | [] => []
  | c :: rest =>
    (if c = '$' ∨ c = '£' then currencyTok else [c]) ++ subCurrency rest

/-- `re.sub('\://', ' __url__ ', doc)`: left-to-right scan replacing each
non-overlapping occurrence of `://` by the url token. -/
def subUrl : List Char → List Char
  | [] => []
  | c :: rest =>
    if c = ':' ∧ rest.take 2 = ['/', '/'] then urlTok ++ subUrl (rest.drop 2)
    else c :: subUrl rest
termination_by l => l.length
decreasing_by
  · simp [List.length_drop]
    omega
  · simp

/-- ASCII lower-casing of one character, the effect of Python's
`str.lower` on the ASCII range. -/
def toLow (c : Char) : Char :=
  if 65 ≤ c.toNat ∧ c.toNat ≤ 90 then Char.ofNat (c.toNat + 32) else c

/-- `doc.lower()` (ASCII model). -/
def lowerStr (s : List Char) : List Char := s.map toLow

/-- The notebook's `preprocess`: currency substitution, then url
substitution, then lower-casing. -/
def preprocess (s : List Char) : List Char := lowerStr (subUrl (subCurrency s))

lemma charOfNat_toNat {n : ℕ} (h : n < 55296) : (Char.ofNat n).toNat = n := by
  have hv : Nat.isValidChar n := Or.inl h
  unfold Char.ofNat
  rw [dif_pos hv]
  rfl

lemma toLow_not_upper (c : Char) :
    ¬(65 ≤ (toLow c).toNat ∧ (toLow c).toNat ≤ 90) := by
  by_cases h : 65 ≤ c.toNat ∧ c.toNat ≤ 90
  · unfold toLow
    rw [if_pos h, charOfNat_toNat (by omega)]
    omega
  · unfold toLow
    rw [if_neg h]
    exact h

lemma toLow_eq_special {c x : Char} (hx : x.toNat < 97 ∨ 122 < x.toNat)
    (h : toLow c = x) : c = x := by
  unfold toLow at h
  split_ifs at h with hc
  · exfalso
    have hn : (Char.ofNat (c.toNat + 32)).toNat = c.toNat + 32 :=
      charOfNat_toNat (by omega)
    rw [h] at hn
    omega
  · exact h

lemma subCurrency_no_currency (s : List Char) :
    ∀ c ∈ subCurrency s, c ≠ '$' ∧ c ≠ '£' := by
  induction s with
  | nil =>
    intro c hc
    simp [subCurrency] at hc
  | cons a rest ih =>
    intro c hc
    simp only [subCurrency] at hc
    rcases List.mem_append.mp hc with h1 | h1
    · split_ifs at h1 with hcur
      · exact (show ∀ x ∈ currencyTok, x ≠ '$' ∧ x ≠ '£' by decide) c h1
      · rcases List.mem_singleton.mp h1 with rfl
        push_neg at hcur
        exact hcur
    · exact ih c h1

lemma subUrl_chars_aux :
    ∀ (n : ℕ) (s : List Char), s.length ≤ n →
      ∀ c ∈ subUrl s, c ∈ urlTok ∨ c ∈ s := by
  intro n
  induction n with
  | zero =>
    intro s hs c hc
    have hnil : s = [] := List.length_eq_zero.mp (Nat.le_zero.mp hs)
    subst hnil
    simp [subUrl] at hc
  | succ n ih =>
    intro s hs c hc
    cases s with
    | nil => simp [subUrl] at hc
    | cons a rest =>
      simp only [subUrl] at hc
      split_ifs at hc with hguard
      · rcases List.mem_append.mp hc with h1 | h1
        · exact Or.inl h1
        · have hlen : (rest.drop 2).length ≤ n := by
            simp only [List.length_cons] at hs
            simp only [List.length_drop]
            omega
          rcases ih (rest.drop 2) hlen c h1 with h2 | h2
          · exact Or.inl h2
          · exact Or.inr (List.mem_cons_of_mem a (List.drop_subset 2 rest h2))
      · rcases List.mem_cons.mp hc with rfl | h1
        · exact Or.inr (List.mem_cons_self _ _)
        · have hlen : rest.length ≤ n := by
            simp only [List.length_cons] at hs
            omega
          rcases ih rest hlen c h1 with h2 | h2
          · exact Or.inl h2
          · exact Or.inr (List.mem_cons_of_mem a h2)

lemma subUrl_chars (s : List Char) :
    ∀ c ∈ subUrl s, c ∈ urlTok ∨ c ∈ s :=
  subUrl_chars_aux s.length s le_rfl

lemma subUrl_eq_slash_cons {s t : List Char} (h : subUrl s = '/' :: t) :
    ∃ s', s = '/' :: s' ∧ t = subUrl s' := by
  cases s with
  | nil => simp [subUrl] at h
  | cons a rest =>
    simp only [subUrl] at h
    split_ifs at h with hguard
    · rw [show urlTok = ' ' :: ['_', '_', 'u', 'r', 'l', '_', '_', ' '] from rfl,
        List.cons_append] at h
      injection h with h1 _
      exact absurd h1 (by decide)
    · injection h with h1 h2
      exact ⟨rest, by rw [h1], h2.symm⟩

lemma subUrl_nil : subUrl [] = [] := by
  simp [subUrl]

lemma infix_url_cons {a : Char} {L : List Char} (ha : a ≠ ':') :
    ([':', '/', '/'] <:+: a :: L) ↔ ([':', '/', '/'] <:+: L) := by
  rw [List.infix_cons_iff]
  constructor
  · rintro (h | h)
    · rcases List.cons_prefix_cons.mp h with ⟨h1, _⟩
      exact absurd h1.symm ha
    · exact h
  · exact Or.inr

lemma subUrl_no_url_aux :
    ∀ (n : ℕ) (s : List Char), s.length ≤ n →
      ¬ ([':', '/', '/'] <:+: subUrl s) := by
  intro n
  induction n with
  | zero =>
    intro s hs h
    have hnil : s = [] := List.length_eq_zero.mp (Nat.le_zero.mp hs)
    subst hnil
    rw [subUrl_nil, List.infix_nil] at h
    simp at h
  | succ n ih =>
    intro s hs h
    cases s with
    | nil =>
      rw [subUrl_nil, List.infix_nil] at h
      simp at h
    | cons a rest =>
      simp only [subUrl] at h
      split_ifs at h with hguard
      · rw [show urlTok ++ subUrl (rest.drop 2) =
          ' ' :: '_' :: '_' :: 'u' :: 'r' :: 'l' :: '_' :: '_' :: ' ' ::
            subUrl (rest.drop 2) from rfl] at h
        rw [infix_url_cons (by decide), infix_url_cons (by decide),
          infix_url_cons (by decide), infix_url_cons (by decide),
          infix_url_cons (by decide), infix_url_cons (by decide),
          infix_url_cons (by decide), infix_url_cons (by decide),
          infix_url_cons (by decide)] at h
        have hlen : (rest.drop 2).length ≤ n := by
          simp only [List.length_cons] at hs
          simp only [List.length_drop]
          omega
        exact ih (rest.drop 2) hlen h
      · rcases List.infix_cons_iff.mp h with hpre | hinf
        · rcases hpre with ⟨t, ht⟩
          injection ht with h1 h2
          have h2s : subUrl rest = '/' :: '/' :: t := h2.symm
          rcases subUrl_eq_slash_cons h2s with ⟨s1, hs1, ht1⟩
          rcases subUrl_eq_slash_cons ht1.symm with ⟨s2, hs2, _⟩
          apply hguard
          refine ⟨h1.symm, ?_⟩
          rw [hs1, hs2]
          rfl
        · have hlen : rest.length ≤ n := by
            simp only [List.length_cons] at hs
            omega
          exact ih rest hlen hinf

lemma subUrl_no_url (s : List Char) : ¬ ([':', '/', '/'] <:+: subUrl s) :=
  subUrl_no_url_aux s.length s le_rfl

lemma prefix_map_reflect (f : Char → Char) :
    ∀ (pat s : List Char), (∀ c x, x ∈ pat → f c = x → c = x) →
      pat <+: s.map f → pat <+: s := by
  intro pat
  induction pat with
  | nil =>
    intro s _ _
    exact List.nil_prefix
  | cons p ps ih =>
    intro s hf hpre
    cases s with
    | nil =>
      rw [List.map_nil, List.prefix_nil] at hpre
      exact absurd hpre (List.cons_ne_nil p ps)
    | cons a t =>
      rw [List.map_cons] at hpre
      rcases List.cons_prefix_cons.mp hpre with ⟨h1, h2⟩
      have hpa : a = p := hf a p (List.mem_cons_self p ps) h1.symm
      rw [List.cons_prefix_cons]
      exact ⟨hpa.symm, ih t (fun c x hx => hf c x (List.mem_cons_of_mem p hx)) h2⟩

lemma infix_map_reflect (f : Char → Char) (pat : List Char)
    (hf : ∀ c x, x ∈ pat → f c = x → c = x) :
    ∀ s, pat <:+: s.map f → pat <:+: s := by
  intro s
  induction s with
  | nil =>
    intro h
    rwa [List.map_nil] at h
  | cons a t ih =>
    intro h
    rw [List.map_cons, List.infix_cons_iff] at h
    rw [List.infix_cons_iff]
    rcases h with h | h
    · exact Or.inl (prefix_map_reflect f pat (a :: t) hf h)
    · exact Or.inr (ih h)

/-- Claim C5: for every input string, `preprocess` (currency substitution,
then `://` substitution, then lower-casing, all before any tokenization)
yields a string with no ASCII uppercase letter, no remaining `$` or `£`
character, and no remaining `://` substring; the two reserved replacement
tokens are distinct. -/
theorem preprocess_spec (s : List Char) :
    (∀ c ∈ preprocess s, ¬(65 ≤ c.toNat ∧ c.toNat ≤ 90)) ∧
    (∀ c ∈ preprocess s, c ≠ '$' ∧ c ≠ '£') ∧
    ¬ ([':', '/', '/'] <:+: preprocess s) ∧
    currencyTok ≠ urlTok := by
  refine ⟨?_, ?_, ?_, by decide⟩
  · intro c hc
    unfold preprocess lowerStr at hc
    rcases List.mem_map.mp hc with ⟨c0, _, rfl⟩
    exact toLow_not_upper c0
  · intro c hc
    unfold preprocess lowerStr at hc
    rcases List.mem_map.mp hc with ⟨c0, hc0, rfl⟩
    have h0 : c0 ≠ '$' ∧ c0 ≠ '£' := by
      rcases subUrl_chars _ c0 hc0 with h | h
      · exact (show ∀ x ∈ urlTok, x ≠ '$' ∧ x ≠ '£' by decide) c0 h
      · exact subCurrency_no_currency s c0 h
    constructor
    · intro hcon
      exact h0.1 (toLow_eq_special (Or.inl (by decide)) hcon)
    · intro hcon
      exact h0.2 (toLow_eq_special (Or.inr (by decide)) hcon)
  · intro hinf
    unfold preprocess lowerStr at hinf
    have hrefl : ∀ c x, x ∈ [':', '/', '/'] → toLow c = x → c = x := by
      intro c x hx h
      have hx97 : x.toNat < 97 ∨ 122 < x.toNat := by
        simp only [List.mem_cons, List.mem_singleton, List.not_mem_nil,
          or_false] at hx
        rcases hx with rfl | rfl | rfl
        · exact Or.inl (by decide)
        · exact Or.inl (by decide)
        · exact Or.inl (by decide)
      exact toLow_eq_special hx97 h
    exact subUrl_no_url _ (infix_map_reflect toLow _ hrefl _ hinf)

/-- Witness for C5: the normalizer properties applied to the concrete input
`"A"`, whose preprocessed form is `"a"`. -/
theorem preprocess_spec_witness :
    'a' ∈ preprocess ['A'] ∧ ¬(65 ≤ ('a').toNat ∧ ('a').toNat ≤ 90) := by
  have hmem : 'a' ∈ preprocess ['A'] := by
    have hA : preprocess ['A'] = ['a'] := by
      simp [preprocess, lowerStr, subCurrency, subUrl, subUrl_nil, toLow]
    rw [hA]
    exact List.mem_singleton.mpr rfl
  exact ⟨hmem, (preprocess_spec ['A']).1 'a' hmem⟩

/-! ### Shape validation of `train` -/

/-- Column count of a list-of-rows design matrix (numpy `X.shape[1]`). -/
def numCols (X : List (List ℝ)) : ℕ := (X.headD []).length

/-- Modelled from the spec: the produced `train(X, y, initial_theta, alpha,
iterations)` interface.  The optimizer itself is imported from the absent
`logistic_regression` module; per the spec it fails fast with a descriptive
dimension-mismatch error — before any gradient or cost computation — when
the design-matrix row count differs from the label count or the theta length
differs from the column count, and otherwise runs `gradient_descent`. -/
noncomputable def train (X : List (List ℝ)) (y θ : List ℝ) (α : ℝ)
    (iters : ℕ) : Except String ((Fin θ.length → ℝ) × List ℝ) :=
  if X.length ≠ y.length then
    Except.error "dimension mismatch: design matrix row count differs from label vector length"
  else if numCols X ≠ θ.length then
    Except.error "dimension mismatch: theta length differs from design matrix column count"
  else
    Except.ok (gradient_descent
      (fun (i : Fin X.length) (j : Fin θ.length) => (X.get i).getD j.val 0)
      (fun (i : Fin X.length) => y.getD i.val 0)
      (fun (j : Fin θ.length) => θ.get j) α iters)

/-- Claim C8: whenever the design-matrix row count differs from the label
vector length, or the theta length differs from the design-matrix column
count, `train` returns a dimension-mismatch error, producing no partial
result. -/
theorem train_shape_mismatch (X : List (List ℝ)) (y θ : List ℝ) (α : ℝ)
    (iters : ℕ)
    (h : X.length ≠ y.length ∨ numCols X ≠ θ.length) :
    ∃ msg, train X y θ α iters = Except.error msg := by
  unfold train
  split_ifs with h1 h2
  · exact ⟨_, rfl⟩
  · exact ⟨_, rfl⟩
  · rcases h with h | h
    · exact absurd h h1
    · exact absurd h h2

/-- Witness for C8: `train` rejects a one-row design matrix paired with an
empty label vector. -/
theorem train_shape_mismatch_witness :
    ∃ msg, train [[(1:ℝ)]] [] [(0:ℝ)] 1 1 = Except.error msg :=
  train_shape_mismatch [[(1:ℝ)]] [] [(0:ℝ)] 1 1 (Or.inl (by decide))

/-! ### Label encoding -/

/-- The notebook's label encoding
`y = np.array([l == 'spam' for l in labels]).astype('int')` for one label. -/
def encodeLabel (l : String) : ℕ := if l = "spam" then 1 else 0

/-- The encoded label vector for a list of label strings. -/
def encodeLabels (labels : List String) : List ℕ := labels.map encodeLabel

/-- Claim C9: the label encoding maps exactly the string `"spam"` to `1` and
every other string whatsoever to `0`; consequently the encoded label vector
has entries only in `{0, 1}` and no label string is ever rejected. -/
theorem encodeLabel_spec (labels : List String) (l : String) :
    (encodeLabel l = 1 ↔ l = "spam") ∧
    (l ≠ "spam" → encodeLabel l = 0) ∧
    (∀ v ∈ encodeLabels labels, v = 0 ∨ v = 1) := by
  refine ⟨?_, ?_, ?_⟩
  · unfold encodeLabel
    split_ifs with h
    · simp [h]
    · simp [h]
  · intro h
    unfold encodeLabel
    rw [if_neg h]
  · intro v hv
    rcases List.mem_map.mp hv with ⟨l0, _, rfl⟩
    unfold encodeLabel
    split_ifs
    · exact Or.inr rfl
    · exact Or.inl rfl

/-- Witness for C9: the encoding at the concrete non-spam label `"ham"`. -/
theorem encodeLabel_spec_witness : encodeLabel "ham" = 0 :=
  (encodeLabel_spec [] "ham").2.1 (by decide)

/-! ### Single-message feature extraction -/

/-- Modelled from the spec: the external vectorizer's
`transform(document) -> count_vector (length n)` on an already-tokenized
document; entry `j` counts occurrences of vocabulary word `j`, so words
outside the vocabulary contribute to no entry. -/
def transform (vocab toks : List String) : List ℕ :=
  vocab.map fun w => toks.count w

/-- The notebook's `extract_features`: the transform counts with a constant
`1` (bias) inserted at position 0 (`np.insert(x, 0, 1)`). -/
def extract_features (vocab toks : List String) : List ℕ :=
  1 :: transform vocab toks

/-- Claim C10: for every message (tokenized) and fitted vocabulary of size
`n`, `extract_features` returns a vector of length `n + 1`: entry 0 is the
constant bias `1`, and entry `j + 1` is the count of vocabulary word `j` in
the message (`0` when absent, and out-of-vocabulary words are counted
nowhere); the length always matches a theta trained on `n + 1` columns. -/
theorem extract_features_spec (vocab toks : List String) :
    (extract_features vocab toks).length = vocab.length + 1 ∧
    (extract_features vocab toks).head? = some 1 ∧
    ∀ j : ℕ, (extract_features vocab toks).get? (j + 1) =
      (vocab.get? j).map fun w => toks.count w := by
  refine ⟨?_, rfl, ?_⟩
  · simp [extract_features, transform]
  · intro j
    show (transform vocab toks).get? j = _
    simp [transform]

/-! ### Dataset shaping: balancing, shuffling, splitting -/

/-- `np.nonzero(y == 1)[0]`: indices of positive (spam) examples. -/
def posIndices (y : List ℕ) : List ℕ :=
  (List.range y.length).filter fun i => y.getD i 0 = 1

/-- `np.nonzero(y == 0)[0]`: indices of negative (ham) examples. -/
def negIndices (y : List ℕ) : List ℕ :=
  (List.range y.length).filter fun i => y.getD i 0 = 0

/-- `subset = np.concatenate([pos, neg[0:len(pos)]])`. -/
def subsetIndices (y : List ℕ) : List ℕ :=
  posIndices y ++ (negIndices y).take (posIndices y).length

/-- Modelled from the spec: `np.random.shuffle(subset)` under the fixed seed
set by `np.random.seed(1)`.  The PRNG draw stream determined by the seed is
taken as the explicit list `ds`; each step extracts the element at the next
drawn position (Fisher-Yates), so the result is a permutation of the input
and is reproducible for a fixed stream. -/
def shuffleList {α : Type} : List ℕ → List α → List α
  | [], l => l
  | _ :: _, [] => []
  | d :: ds, a0 :: l0 =>
    (a0 :: l0).getD (d % (l0.length + 1)) a0 ::
      shuffleList ds ((a0 :: l0).eraseIdx (d % (l0.length + 1)))

/-- `X_train = X[train, :]` with `train = np.arange(numTrain)`: the first
`numTrain` shuffled rows. -/
def trainRows {α : Type} (shuffled : List α) (nTrain : ℕ) : List α :=
  shuffled.take nTrain

/-- `X_test = X[test, :]` with `test = numTrain + np.arange(numTest)`: the
`numTest` shuffled rows immediately after the training prefix. -/
def testRows {α : Type} (shuffled : List α) (nTrain nTest : ℕ) : List α :=
  (shuffled.drop nTrain).take nTest

lemma shuffleList_perm {α : Type} :
    ∀ (ds : List ℕ) (l : List α), (shuffleList ds l).Perm l := by
  intro ds
  induction ds with
  | nil =>
    intro l
    simp [shuffleList]
  | cons d ds ih =>
    intro l
    cases l with
    | nil => simp [shuffleList]
    | cons a0 l0 =>
      simp only [shuffleList]
      have hi : d % (l0.length + 1) < (a0 :: l0).length := by
        simp only [List.length_cons]
        exact Nat.mod_lt _ (Nat.succ_pos _)
      have hgetD : (a0 :: l0).getD (d % (l0.length + 1)) a0 =
          (a0 :: l0)[d % (l0.length + 1)] := List.getD_eq_getElem _ _ hi
      rw [hgetD]
      refine ((ih _).cons _).trans ?_
      rw [List.eraseIdx_eq_take_drop_succ]
      refine List.Perm.trans List.perm_middle.symm ?_
      rw [List.getElem_cons_drop, List.take_append_drop]

/-- Claim C6, counterexample: on the one-message dataset with label vector
`y = [1]` (one spam, no ham), the selected subset contains zero negative
examples, not a number equal to the positive count `1` as the claim states. -/
theorem subsetIndices_unbalanced_example :
    (posIndices [1]).length = 1 ∧
    ¬ (((subsetIndices [1]).filter fun i => ([1] : List ℕ).getD i 0 = 0).length
        = (posIndices [1]).length) := by
  decide

/-- Claim C6, amended: the shaping step selects every positive example plus
the first `min(#pos, #neg)` negative examples — equal class counts and total
size `2 * #pos` whenever at least as many negatives as positives exist (as
in the notebook's dataset) — shuffles the subset into a permutation of
itself, reproducibly for the fixed seed-determined draw stream, and splits
the shuffled rows into a training prefix of the requested training size
followed immediately by a test block of the requested test size. -/
theorem shaping_spec (y : List ℕ) (ds : List ℕ) (nTrain nTest : ℕ)
    (hbal : (posIndices y).length ≤ (negIndices y).length)
    (hlen : nTrain + nTest ≤ (subsetIndices y).length) :
    (∀ i ∈ posIndices y, i ∈ subsetIndices y) ∧
    ((subsetIndices y).filter fun i => y.getD i 0 = 0).length =
      (posIndices y).length ∧
    (subsetIndices y).length = 2 * (posIndices y).length ∧
    (shuffleList ds (subsetIndices y)).Perm (subsetIndices y) ∧
    (trainRows (shuffleList ds (subsetIndices y)) nTrain).length = nTrain ∧
    (testRows (shuffleList ds (subsetIndices y)) nTrain nTest).length = nTest ∧
    trainRows (shuffleList ds (subsetIndices y)) nTrain ++
      testRows (shuffleList ds (subsetIndices y)) nTrain nTest =
      (shuffleList ds (subsetIndices y)).take (nTrain + nTest) := by
  have hposlen :
      ((negIndices y).take (posIndices y).length).length =
        (posIndices y).length := by
    rw [List.length_take]
    exact min_eq_left hbal
  have hfilterpos :
      (posIndices y).filter (fun i => y.getD i 0 = 0) = [] := by
    rw [List.filter_eq_nil_iff]
    intro i hi
    unfold posIndices at hi
    rcases List.mem_filter.mp hi with ⟨_, h1⟩
    simp only [decide_eq_true_eq] at h1 ⊢
    omega
  have hfilterneg :
      ((negIndices y).take (posIndices y).length).filter
        (fun i => y.getD i 0 = 0) =
        (negIndices y).take (posIndices y).length := by
    rw [List.filter_eq_self]
    intro i hi
    have hmem : i ∈ negIndices y := List.take_subset _ _ hi
    unfold negIndices at hmem
    exact (List.mem_filter.mp hmem).2
  have hsublen : (subsetIndices y).length = 2 * (posIndices y).length := by
    unfold subsetIndices
    rw [List.length_append, hposlen]
    omega
  have hperm := shuffleList_perm ds (subsetIndices y)
  have hshuflen : (shuffleList ds (subsetIndices y)).length =
      (subsetIndices y).length := hperm.length_eq
  refine ⟨?_, ?_, hsublen, hperm, ?_, ?_, ?_⟩
  · intro i hi
    exact List.mem_append_left _ hi
  · unfold subsetIndices
    rw [List.filter_append, hfilterpos, hfilterneg, List.nil_append, hposlen]
  · unfold trainRows
    rw [List.length_take, hshuflen]
    omega
  · unfold testRows
    rw [List.length_take, List.length_drop, hshuflen]
    omega
  · unfold trainRows testRows
    rw [List.take_add]

/-- Witness for C6: the shaping properties on the concrete label vector
`y = [1, 0]` with draw stream `[0]`, training size 1 and test size 1. -/
theorem shaping_spec_witness :
    (shuffleList [0] (subsetIndices [1, 0])).Perm (subsetIndices [1, 0]) ∧
    (trainRows (shuffleList [0] (subsetIndices [1, 0])) 1).length = 1 ∧
    (testRows (shuffleList [0] (subsetIndices [1, 0])) 1 1).length = 1 := by
  have h := shaping_spec [1, 0] [0] 1 1 (by decide) (by decide)
  exact ⟨h.2.2.2.1, h.2.2.2.2.1, h.2.2.2.2.2.1⟩
